import Mathlib

/-!
Shallow embedding of the ingestion pipeline of `src/gemini.py`:
file discovery, payload preparation (with truncation), retry with
exponential backoff, token-budget admission, and cleanup.

Conventions of the embedding:
* Decoded file text becomes `List Char` (Python reads files in text mode
  with utf-8 decoding and replacement of invalid bytes; `len` on the
  decoded string counts characters). The number of raw bytes of a file is
  carried separately where a claim speaks about byte size; every utf-8
  decoding with replacement emits at most one character per input byte,
  so `content.length <= byteSize` is the decoding contract used as a
  hypothesis where needed.
* Remote calls (`genai.upload_file`, `model.count_tokens`,
  `genai.delete_file`) are external collaborators; their outcomes are
  inputs of type `Except`.
* Machine integers do not overflow in the source (Python ints), so `Nat`
  is used directly.
-/

namespace Gemini

/-- The supported type list of `src/gemini.py` line 16, holding only `text/plain`. -/
def SUPPORTED_MIME_TYPES : List String := ["text/plain"]

/-- Embeds `get_mime_type` (lines 18-20). `mimetypes.guess_type` is Python
standard library; its result (possibly `None`) is the input `guess`.
In Python, `mime_type in SUPPORTED_MIME_TYPES` is `False` for `None`. -/
def get_mime_type (guess : Option String) : String :=
  match guess with
  | some m => if SUPPORTED_MIME_TYPES.contains m then m else "text/plain"
  | none => "text/plain"

/-- Python `content.split('\n')` on the decoded text: split at every
newline, keeping empty pieces; the empty text yields `[[]]`. -/
def splitNl : List Char → List (List Char)
  | [] => [[]]
  | c :: rest =>
    if c = '\n' then [] :: splitNl rest
    else
      match splitNl rest with
      | [] => [[c]]
      | l :: ls => (c :: l) :: ls

/-- Python `'\n'.join(pieces)`. -/
def joinNl : List (List Char) → List Char
  | [] => []
  | [l] => l
  | l :: ls => l ++ '\n' :: joinNl ls

/-- Python `lines[-max_lines:]`: the last `k` elements, except that
`lines[-0:]` is the whole list. -/
def sliceLast (k : Nat) (l : List α) : List α :=
  if k = 0 then l else l.drop (l.length - k)

/-- Embeds the pure payload construction inside `upload_file_with_retry`
(lines 37-52): the metadata header, the verbatim-vs-truncate decision on
`file_size = len(content)` (a character count of the decoded text), and
the truncated tail join. `rel` is `os.path.relpath(filepath)`, `fp` the
original path, `content` the decoded file text. -/
def prepare (rel fp content : List Char) (max_lines max_size_no_truncate : Nat) :
    List Char :=
  let metadata := ("File: ").data ++ rel ++ ("\nOriginal Path: ").data ++ fp ++ ("\n").data
  if content.length ≤ max_size_no_truncate then
    metadata ++ ("File Size: ").data ++ (toString content.length).data ++
      (" bytes\n\n").data ++ content
  else
    let lines := splitNl content
    let truncated := joinNl (sliceLast max_lines lines)
    metadata ++ ("Note: This file has been truncated to the last ").data ++
      (toString max_lines).data ++ (" lines.\n\n").data ++ truncated

/-- The metadata header shared by both branches of `prepare`. -/
def metadataOf (rel fp : List Char) : List Char :=
  ("File: ").data ++ rel ++ ("\nOriginal Path: ").data ++ fp ++ ("\n").data

/-- `needle` matches the front of `hay`. -/
def leadMatch : List Char → List Char → Bool
  | [], _ => true
  | _ :: _, [] => false
  | a :: as, b :: bs => a = b && leadMatch as bs

/-- `needle` occurs contiguously somewhere in `hay`; used to formalise
"the header names the value `n`" as `hasSub (toString n).data header`. -/
def hasSub (needle : List Char) : List Char → Bool
  | [] => leadMatch needle []
  | c :: cs => leadMatch needle (c :: cs) || hasSub needle cs

theorem leadMatch_self_append (n t : List Char) : leadMatch n (n ++ t) = true := by
  induction n with
  | nil => rfl
  | cons a as ih => simp [leadMatch, ih]

theorem hasSub_self_append (n t : List Char) : hasSub n (n ++ t) = true := by
  cases n with
  | nil => cases t <;> simp [hasSub, leadMatch]
  | cons a as =>
    simp [hasSub, leadMatch]
    exact Or.inl (leadMatch_self_append as t)

theorem hasSub_append_left (n xs ys : List Char) (h : hasSub n ys = true) :
    hasSub n (xs ++ ys) = true := by
  induction xs with
  | nil => simpa using h
  | cons x xs ih => simp [hasSub, ih]

theorem sliceLast_suffix (k : Nat) (l : List α) : sliceLast k l <:+ l := by
  unfold sliceLast
  by_cases h : k = 0
  · simp [h]
  · simp [h, List.drop_suffix]

theorem sliceLast_length_le (k : Nat) (l : List α) (hk : 0 < k) :
    (sliceLast k l).length ≤ k := by
  unfold sliceLast
  rw [if_neg (Nat.pos_iff_ne_zero.mp hk)]
  rw [List.length_drop]
  omega

theorem prepare_verbatim (rel fp content : List Char) (ml ms : Nat)
    (h : content.length ≤ ms) :
    prepare rel fp content ml ms =
      metadataOf rel fp ++ ("File Size: ").data ++ (toString content.length).data ++
        (" bytes\n\n").data ++ content := by
  simp [prepare, metadataOf, h]

theorem prepare_truncated (rel fp content : List Char) (ml ms : Nat)
    (h : ¬ content.length ≤ ms) :
    prepare rel fp content ml ms =
      metadataOf rel fp ++ ("Note: This file has been truncated to the last ").data ++
        (toString ml).data ++ (" lines.\n\n").data ++ joinNl (sliceLast ml (splitNl content)) := by
  simp [prepare, metadataOf, h]

end Gemini

namespace Gemini

/-- C10: every call of `get_mime_type` returns `text/plain`, whatever
`mimetypes.guess_type` guessed: a supported guess is already `text/plain`
and anything else falls back to `text/plain`. -/
theorem C10_mime_type_always_text_plain (guess : Option String) :
    get_mime_type guess = "text/plain" := by
  match guess with
  | none => rfl
  | some m =>
    by_cases h : m = "text/plain"
    · subst h; rfl
    · simp [get_mime_type, SUPPORTED_MIME_TYPES, h]

/-- C4 counterexample: a file of byte size 2 whose content decodes to the
single character é. The byte size (2) is at most the verbatim ceiling and
the decoding emits at most one character per byte, yet the prepared
payload nowhere contains the digit string "2": the header states
`File Size: 1 bytes` (the decoded character count), not the exact byte
size, so the claim is false at this input. -/
theorem C4_counterexample :
    2 ≤ 104800 ∧ (("é").data).length ≤ 2 ∧
      hasSub (toString 2).data
        (prepare ("p").data ("p").data ("é").data 75 104800) = false := by
  refine ⟨by decide, by decide, by decide⟩

/-- C4 (amended): for a file whose byte size is at most the verbatim
ceiling, the payload embeds the entire decoded content unmodified after
the header, and the header states the decoded character count (which
equals the byte size only when each byte decodes to one character). The
hypothesis `hdec` is the utf-8-with-replacement decoding contract: at
most one character per input byte. -/
theorem C4_verbatim_payload (rel fp content : List Char) (byteSize ml ms : Nat)
    (hdec : content.length ≤ byteSize) (hsize : byteSize ≤ ms) :
    prepare rel fp content ml ms =
      metadataOf rel fp ++ ("File Size: ").data ++ (toString content.length).data ++
        (" bytes\n\n").data ++ content
    ∧ content <:+ prepare rel fp content ml ms := by
  have h := prepare_verbatim rel fp content ml ms (le_trans hdec hsize)
  refine ⟨h, metadataOf rel fp ++ ("File Size: ").data ++
    (toString content.length).data ++ (" bytes\n\n").data, ?_⟩
  rw [h]

theorem C4_verbatim_payload_witness :
    prepare ("a").data ("a").data ("hi").data 75 104800 =
      metadataOf ("a").data ("a").data ++ ("File Size: ").data ++
        (toString (("hi").data).length).data ++ (" bytes\n\n").data ++ ("hi").data
    ∧ ("hi").data <:+ prepare ("a").data ("a").data ("hi").data 75 104800 :=
  C4_verbatim_payload ("a").data ("a").data ("hi").data 2 75 104800
    (by decide) (by decide)

/-- C5 counterexample: a five-byte ascii file (content `a\nb\nc`, five
characters, so the byte reading and the character reading of the size
agree) with ceiling 3 and line limit 1. The truncated branch is taken,
but the payload nowhere contains the digit string "5": the truncation
notice names only the line limit, never the original size, so the claim
is false at this input. -/
theorem C5_counterexample :
    3 < 5 ∧ (("a\nb\nc").data).length ≤ 5 ∧
      hasSub (toString 5).data
        (prepare ("p").data ("p").data ("a\nb\nc").data 1 3) = false := by
  refine ⟨by decide, by decide, by decide⟩

/-- C5 (amended): for a file whose decoded character count exceeds the
ceiling (the code compares `len(content)`, a character count, with the
ceiling), the payload content after the header is the join of the last
`max_lines` lines of the decoded text (a tail-preserving suffix of the
line list, of at most `max_lines` lines when the limit is positive), and
the header carries a truncation notice naming the line limit applied —
but not the original size. -/
theorem C5_truncated_payload (rel fp content : List Char) (ml ms : Nat)
    (h : ms < content.length) :
    prepare rel fp content ml ms =
      metadataOf rel fp ++ ("Note: This file has been truncated to the last ").data ++
        (toString ml).data ++ (" lines.\n\n").data ++ joinNl (sliceLast ml (splitNl content))
    ∧ sliceLast ml (splitNl content) <:+ splitNl content
    ∧ (0 < ml → (sliceLast ml (splitNl content)).length ≤ ml)
    ∧ hasSub (toString ml).data (prepare rel fp content ml ms) = true := by
  have heq := prepare_truncated rel fp content ml ms (by omega)
  refine ⟨heq, sliceLast_suffix ml (splitNl content),
    fun hk => sliceLast_length_le ml (splitNl content) hk, ?_⟩
  rw [heq, metadataOf]
  rw [show
      ("File: ").data ++ rel ++ ("\nOriginal Path: ").data ++ fp ++ ("\n").data ++
        ("Note: This file has been truncated to the last ").data ++ (toString ml).data ++
        (" lines.\n\n").data ++ joinNl (sliceLast ml (splitNl content)) =
      (("File: ").data ++ rel ++ ("\nOriginal Path: ").data ++ fp ++ ("\n").data ++
        ("Note: This file has been truncated to the last ").data) ++
        ((toString ml).data ++ ((" lines.\n\n").data ++ joinNl (sliceLast ml (splitNl content))))
    from by simp [List.append_assoc]]
  exact hasSub_append_left _ _ _ (hasSub_self_append _ _)

theorem C5_truncated_payload_witness :
    1 < (("x\ny\nz").data).length ∧
    (prepare ("q").data ("q").data ("x\ny\nz").data 2 1 =
      metadataOf ("q").data ("q").data ++
        ("Note: This file has been truncated to the last ").data ++
        (toString 2).data ++ (" lines.\n\n").data ++
        joinNl (sliceLast 2 (splitNl ("x\ny\nz").data))
    ∧ sliceLast 2 (splitNl ("x\ny\nz").data) <:+ splitNl ("x\ny\nz").data
    ∧ (0 < 2 → (sliceLast 2 (splitNl ("x\ny\nz").data)).length ≤ 2)
    ∧ hasSub (toString 2).data
        (prepare ("q").data ("q").data ("x\ny\nz").data 2 1) = true) :=
  ⟨by decide, C5_truncated_payload ("q").data ("q").data ("x\ny\nz").data 2 1 (by decide)⟩

/-- C9: preparation is deterministic — the payload is a pure function of
the paths, the decoded content and the two limits, so equal inputs give
identical payload text — and a file with zero lines (empty decoded
content) produces a payload that is exactly the valid header with empty
content (size stated as 0), not an error. -/
theorem C9_prepare_deterministic_and_empty (rel fp : List Char) (ml ms : Nat) :
    (∀ c₁ c₂ : List Char, c₁ = c₂ →
      prepare rel fp c₁ ml ms = prepare rel fp c₂ ml ms)
    ∧ prepare rel fp [] ml ms = metadataOf rel fp ++ ("File Size: 0 bytes\n\n").data := by
  refine ⟨fun c₁ c₂ h => by rw [h], ?_⟩
  have h := prepare_verbatim rel fp [] ml ms (by simp)
  rw [h]
  simp only [List.append_assoc, List.append_nil]
  congr 1

/-- Embeds the shared retry loop of `upload_file_with_retry` (lines 60-78)
and `count_tokens_with_retry` (lines 79-93): `for attempt in range(max_retries)`
around the remote call, with `wait_time = base_wait_time * 2 ** attempt`
slept after a failed non-final attempt, and a bare re-raise after the
final attempt fails. `op attempt` is the outcome of the remote call on
the given 0-based attempt; `r` counts the attempts still allowed.
Returns the returned-or-raised outcome (`none` when the loop body never
runs, matching Python falling off an empty loop and returning `None`),
the number of attempts performed, and the list of waits slept. -/
def retryLoop (op : Nat → Except ε α) (base : Nat) :
    Nat → Nat → Option (Except ε α) × Nat × List Nat
  | _, 0 => (none, 0, [])
  | attempt, r + 1 =>
    match op attempt with
    | .ok v => (some (.ok v), 1, [])
    | .error e =>
      if r = 0 then (some (.error e), 1, [])
      else
        let rest := retryLoop op base (attempt + 1) r
        (rest.1, rest.2.1 + 1, base * 2 ^ attempt :: rest.2.2)

/-- The retry executor entered at attempt 0, as both retrying wrappers in
the source invoke it (defaults `max_retries=5`, `base_wait_time=5`). -/
def call_with_retry (op : Nat → Except ε α) (max_retries base_wait_time : Nat) :
    Option (Except ε α) × Nat × List Nat :=
  retryLoop op base_wait_time 0 max_retries

theorem range_map_pow (base a k : Nat) :
    (List.range (k + 1)).map (fun i => base * 2 ^ (a + i)) =
      base * 2 ^ a :: (List.range k).map (fun i => base * 2 ^ (a + 1 + i)) := by
  rw [List.range_succ_eq_map]
  simp only [List.map_cons, List.map_map, Nat.add_zero]
  congr 1
  apply List.map_congr_left
  intro i _
  simp only [Function.comp_apply, Nat.succ_eq_add_one]
  congr 2
  omega

theorem retryLoop_succeeds (op : Nat → Except ε α) (base : Nat) :
    ∀ k a r (v : α), (∀ i, i < k → ∃ e, op (a + i) = .error e) →
      op (a + k) = .ok v → k < r →
      retryLoop op base a r =
        (some (.ok v), k + 1, (List.range k).map (fun i => base * 2 ^ (a + i))) := by
  intro k
  induction k with
  | zero =>
    intro a r v _ hok hr
    match r, hr with
    | r' + 1, _ =>
      simp only [retryLoop]
      rw [show a + 0 = a from rfl] at hok
      rw [hok]
      simp
  | succ k ih =>
    intro a r v hfail hok hr
    match r, hr with
    | r' + 1, hr =>
      obtain ⟨e₀, he₀⟩ := hfail 0 (Nat.succ_pos k)
      rw [show a + 0 = a from rfl] at he₀
      have hr' : k < r' := by omega
      have hrest := ih (a + 1) r' v
        (fun i hi => by
          obtain ⟨e, he⟩ := hfail (i + 1) (by omega)
          exact ⟨e, by rw [show a + 1 + i = a + (i + 1) from by omega]; exact he⟩)
        (by rw [show a + 1 + k = a + (k + 1) from by omega]; exact hok) hr'
      simp only [retryLoop, he₀]
      rw [if_neg (by omega)]
      rw [hrest, range_map_pow]

theorem retryLoop_all_fail (op : Nat → Except ε α) (base : Nat) :
    ∀ m a (es : Nat → ε), (∀ i, i < m + 1 → op (a + i) = .error (es i)) →
      retryLoop op base a (m + 1) =
        (some (.error (es m)), m + 1, (List.range m).map (fun i => base * 2 ^ (a + i))) := by
  intro m
  induction m with
  | zero =>
    intro a es h
    have h0 := h 0 Nat.one_pos
    rw [show a + 0 = a from rfl] at h0
    simp only [retryLoop, h0]
    rfl
  | succ m ih =>
    intro a es h
    have h0 := h 0 (Nat.succ_pos _)
    rw [show a + 0 = a from rfl] at h0
    have hrest := ih (a + 1) (fun i => es (i + 1))
      (fun i hi => by
        have := h (i + 1) (by omega)
        rw [show a + 1 + i = a + (i + 1) from by omega]
        exact this)
    conv_lhs => rw [retryLoop]
    simp only [h0]
    rw [if_neg (Nat.succ_ne_zero m), hrest, range_map_pow]

/-- C6: the retry executor. If the wrapped operation fails on its first
`k` attempts with `k < max_retries` and then succeeds, the loop returns
the success outcome after exactly `k + 1` attempts, having slept
`base * 2 ^ (n - 1)` before retry number `n` (the waits, in order, are
`base * 2 ^ 0, ..., base * 2 ^ (k - 1)`); and when all `max_retries`
attempts fail, the loop re-raises the failure of the final attempt to
the caller after exactly `max_retries` attempts rather than swallowing
it. -/
theorem C6_retry_executor (op : Nat → Except ε α) (max_retries base : Nat) :
    (∀ k (v : α), (∀ i, i < k → ∃ e, op i = .error e) → op k = .ok v →
      k < max_retries →
      call_with_retry op max_retries base =
        (some (.ok v), k + 1, (List.range k).map (fun n => base * 2 ^ n)))
    ∧ (∀ es : Nat → ε, (∀ i, i < max_retries → op i = .error (es i)) →
      0 < max_retries →
      call_with_retry op max_retries base =
        (some (.error (es (max_retries - 1))), max_retries,
          (List.range (max_retries - 1)).map (fun n => base * 2 ^ n))) := by
  constructor
  · intro k v hfail hok hk
    have h := retryLoop_succeeds op base k 0 max_retries v
      (fun i hi => by simpa using hfail i hi) (by simpa using hok) hk
    simpa [call_with_retry] using h
  · intro es hfail hpos
    match max_retries, hpos with
    | m + 1, _ =>
      have h := retryLoop_all_fail op base m 0 es (fun i hi => by simpa using hfail i hi)
      simpa [call_with_retry] using h

theorem C6_retry_executor_witness :
    call_with_retry (fun i => if i < 2 then (.error "e" : Except String Nat) else .ok 7) 5 5 =
      (some (.ok 7), 3, [5, 10])
    ∧ call_with_retry (fun _ => (.error "x" : Except String Nat)) 3 5 =
      (some (.error "x"), 3, [5, 10]) := by
  constructor
  · have h := (C6_retry_executor
      (fun i => if i < 2 then (.error "e" : Except String Nat) else .ok 7) 5 5).1 2 7
      (fun i hi => ⟨ "e", by
        have : i = 0 ∨ i = 1 := by omega
        rcases this with h | h <;> subst h <;> rfl⟩)
      (by rfl) (by omega)
    rw [h]
    rfl
  · have h := (C6_retry_executor (fun _ => (.error "x" : Except String Nat)) 3 5).2
      (fun _ => "x") (fun i _ => rfl) (by omega)
    rw [h]
    rfl

theorem C9_prepare_witness :
    prepare ("a").data ("a").data ("b").data 75 104800 =
      prepare ("a").data ("a").data ("b").data 75 104800
    ∧ prepare ("a").data ("a").data [] 75 104800 =
      metadataOf ("a").data ("a").data ++ ("File Size: 0 bytes\n\n").data :=
  ⟨(C9_prepare_deterministic_and_empty ("a").data ("a").data 75 104800).1
      ("b").data ("b").data rfl,
    (C9_prepare_deterministic_and_empty ("a").data ("a").data 75 104800).2⟩

end Gemini

namespace Gemini

/-- The object returned by the remote store call (`genai.upload_file`):
an opaque remote resource named by `name`, labelled by `displayName`. -/
structure FileResp where
  name : String
  displayName : String
deriving DecidableEq

/-- The value `process_file` hands to the admission loop: either
`(file_response, file_tokens, None)` on success or `(None, 0, filepath)`
after any exception. -/
inductive WorkerResult where
  | ok (resp : FileResp) (tokens : Nat)
  | err (path : String)
deriving DecidableEq

/-- The view one worker has of the remote collaborators: the path of its file,
the outcome of the (retry-wrapped) store call `upload_file_with_retry`,
and the outcome of the (retry-wrapped) measure call
`count_tokens_with_retry` on the stored handle. -/
structure WorkerInput where
  path : String
  storeResult : Except String FileResp
  measureResult : Except String Nat

/-- Embeds `process_file` (lines 95-105): the worker runs store then
measure; any exception from either is caught by the bare `except` and
turned into `(None, 0, filepath)` — the handler performs no remote
deletion before returning. -/
def process_file (w : WorkerInput) : WorkerResult :=
  match w.storeResult with
  | .error _ => .err w.path
  | .ok resp =>
    match w.measureResult with
    | .error _ => .err w.path
    | .ok t => .ok resp t

/-- The state threaded through the result loop of `upload_files`:
`uploaded_files`, `skipped_files`, `total_tokens`, plus the handles the
loop has passed to `genai.delete_file` inline (line 128). -/
structure UState where
  uploaded : List FileResp
  skipped : List String
  total : Nat
  deleted : List FileResp
deriving DecidableEq

/-- `max_tokens = 2000000`, the 2M token ceiling of `upload_files`
(line 111). -/
def max_tokens : Nat := 2000000

/-- One iteration of the result loop of `upload_files` (lines 122-133):
the path of an errored worker joins `skipped_files`; a measured file whose
cost would push the total over the ceiling joins `skipped_files` and its
handle is deleted inline; otherwise the file is admitted and the total
grows by its cost. The inline `genai.delete_file` call of line 128 can
itself raise and abort the loop — that error path is not modelled here
(the budget components `total` and `uploaded` do not depend on it, and
an aborted run is a prefix of result sequences, which the budget facts
quantify over); `admitRun` below models the loop together with the
delete error path. -/
def admitStep (maxT : Nat) (st : UState) (r : WorkerResult) : UState :=
  match r with
  | .err p => { st with skipped := st.skipped ++ [p] }
  | .ok resp t =>
    if maxT < st.total + t then
      { st with skipped := st.skipped ++ [resp.displayName],
                deleted := st.deleted ++ [resp] }
    else
      { st with uploaded := st.uploaded ++ [resp], total := st.total + t }

/-- The whole result loop of `upload_files` (lines 122-135), started from
empty lists and a zero total. -/
def admitLoop (maxT : Nat) (rs : List WorkerResult) : UState :=
  rs.foldl (admitStep maxT) ⟨[], [], 0, []⟩

/-- The admitted `(handle, cost)` pairs of a run, in admission order:
the sublist of successful results accepted by the running-total check of
`admitStep`. -/
def admittedResults (maxT : Nat) : Nat → List WorkerResult → List (FileResp × Nat)
  | _, [] => []
  | tot, .err _ :: rest => admittedResults maxT tot rest
  | tot, .ok resp t :: rest =>
    if maxT < tot + t then admittedResults maxT tot rest
    else (resp, t) :: admittedResults maxT (tot + t) rest

/-- The handles of the successful worker results, in order. -/
def okHandles : List WorkerResult → List FileResp
  | [] => []
  | .ok resp _ :: rest => resp :: okHandles rest
  | .err _ :: rest => okHandles rest

/-- Every handle the remote store call created during the run: one per
worker whose `upload_file_with_retry` returned a response. -/
def createdHandles : List WorkerInput → List FileResp
  | [] => []
  | w :: rest =>
    match w.storeResult with
    | .ok resp => resp :: createdHandles rest
    | .error _ => createdHandles rest

/-- The handles of workers whose store and measure both succeeded — the
ones that reach the admission decision of `upload_files`. -/
def measuredOkHandles : List WorkerInput → List FileResp
  | [] => []
  | w :: rest =>
    match w.storeResult, w.measureResult with
    | .ok resp, .ok _ => resp :: measuredOkHandles rest
    | _, _ => measuredOkHandles rest

/-- Embeds the result loop of `upload_files` (lines 122-135) together
with the error path of the inline `genai.delete_file` call of line 128,
which no try guards: `del` gives the per-handle outcome of that remote
delete. The rejection branch appends to `skipped_files` and then calls
delete, matching the statement order of lines 126-128; when the delete
raises, the loop aborts and `upload_files` propagates the exception.
The Bool component records whether the loop ran to completion. -/
def admitRun (maxT : Nat) (del : FileResp → Except String Unit) :
    UState → List WorkerResult → UState × Bool
  | st, [] => (st, true)
  | st, .err p :: rest =>
    admitRun maxT del { st with skipped := st.skipped ++ [p] } rest
  | st, .ok resp t :: rest =>
    if maxT < st.total + t then
      match del resp with
      | .ok _ =>
        admitRun maxT del
          { st with skipped := st.skipped ++ [resp.displayName],
                    deleted := st.deleted ++ [resp] } rest
      | .error _ =>
        ({ st with skipped := st.skipped ++ [resp.displayName],
                   deleted := st.deleted ++ [resp] }, false)
    else
      admitRun maxT del
        { st with uploaded := st.uploaded ++ [resp], total := st.total + t } rest

/-- Every handle passed to `genai.delete_file` over the whole run of
`main` (lines 243-263), given the per-handle delete outcomes `del`: the
inline delete attempts of the admission loop — including the one that
raised, when one did — followed, only when `upload_files` returned, by
the final `cleanup_files(uploaded_files)` of the `finally` block, which
passes each admitted handle to delete once. When an inline delete
raised, `upload_files` propagated before returning, the assignment of
line 245 never happened, `uploaded_files` in `main` kept its initial
`[]` of line 243, and the final cleanup passed nothing to delete. -/
def runDeletes (del : FileResp → Except String Unit)
    (ws : List WorkerInput) : List FileResp :=
  if (admitRun max_tokens del ⟨[], [], 0, []⟩ (ws.map process_file)).2 then
    (admitRun max_tokens del ⟨[], [], 0, []⟩ (ws.map process_file)).1.deleted ++
      (admitRun max_tokens del ⟨[], [], 0, []⟩ (ws.map process_file)).1.uploaded
  else
    (admitRun max_tokens del ⟨[], [], 0, []⟩ (ws.map process_file)).1.deleted

theorem foldl_admitStep_total (maxT : Nat) :
    ∀ (rs : List WorkerResult) (st : UState),
      (List.foldl (admitStep maxT) st rs).total =
        st.total + ((admittedResults maxT st.total rs).map Prod.snd).sum := by
  intro rs
  induction rs with
  | nil => intro st; simp [admittedResults]
  | cons r rest ih =>
    intro st
    match r with
    | .err p => simp [admitStep, admittedResults, ih]
    | .ok resp t =>
      by_cases h : maxT < st.total + t
      · simp [admitStep, admittedResults, h, ih]
      · simp only [List.foldl_cons, admitStep, if_neg h, admittedResults]
        rw [ih]
        simp
        omega

theorem foldl_admitStep_uploaded (maxT : Nat) :
    ∀ (rs : List WorkerResult) (st : UState),
      (List.foldl (admitStep maxT) st rs).uploaded =
        st.uploaded ++ (admittedResults maxT st.total rs).map Prod.fst := by
  intro rs
  induction rs with
  | nil => intro st; simp [admittedResults]
  | cons r rest ih =>
    intro st
    match r with
    | .err p => simp [admitStep, admittedResults, ih]
    | .ok resp t =>
      by_cases h : maxT < st.total + t
      · simp [admitStep, admittedResults, h, ih]
      · simp only [List.foldl_cons, admitStep, if_neg h, admittedResults]
        rw [ih]
        simp

theorem foldl_admitStep_total_le (maxT : Nat) :
    ∀ (rs : List WorkerResult) (st : UState), st.total ≤ maxT →
      (List.foldl (admitStep maxT) st rs).total ≤ maxT := by
  intro rs
  induction rs with
  | nil => intro st h; simpa using h
  | cons r rest ih =>
    intro st h
    match r with
    | .err p => exact ih _ (by simpa [admitStep] using h)
    | .ok resp t =>
      by_cases hb : maxT < st.total + t
      · exact ih _ (by simpa [admitStep, hb] using h)
      · refine ih _ ?_
        simp [admitStep, hb]
        omega

theorem admitRun_count_le (maxT : Nat) (del : FileResp → Except String Unit)
    (h : FileResp) :
    ∀ (rs : List WorkerResult) (st : UState),
      ((admitRun maxT del st rs).1.deleted ++
          (admitRun maxT del st rs).1.uploaded).count h ≤
        (st.deleted ++ st.uploaded).count h + (okHandles rs).count h := by
  intro rs
  induction rs with
  | nil => intro st; simp [admitRun, okHandles]
  | cons r rest ih =>
    intro st
    match r with
    | .err p =>
      simp only [admitRun, okHandles]
      simpa using ih { st with skipped := st.skipped ++ [p] }
    | .ok resp t =>
      by_cases hb : maxT < st.total + t
      · cases hd : del resp with
        | ok u =>
          have hrec := ih { st with skipped := st.skipped ++ [resp.displayName],
                                    deleted := st.deleted ++ [resp] }
          simp only [admitRun, if_pos hb, hd, okHandles]
          simp only [List.count_append, List.count_cons, List.count_nil] at hrec ⊢
          omega
        | error e =>
          simp only [admitRun, if_pos hb, hd, okHandles]
          simp only [List.count_append, List.count_cons, List.count_nil]
          omega
      · have hrec := ih { st with uploaded := st.uploaded ++ [resp],
                                  total := st.total + t }
        simp only [admitRun, if_neg hb, okHandles]
        simp only [List.count_append, List.count_cons, List.count_nil] at hrec ⊢
        omega

theorem admitRun_count_complete (maxT : Nat) (del : FileResp → Except String Unit)
    (h : FileResp) :
    ∀ (rs : List WorkerResult) (st : UState),
      (admitRun maxT del st rs).2 = true →
      ((admitRun maxT del st rs).1.deleted ++
          (admitRun maxT del st rs).1.uploaded).count h =
        (st.deleted ++ st.uploaded).count h + (okHandles rs).count h := by
  intro rs
  induction rs with
  | nil => intro st _; simp [admitRun, okHandles]
  | cons r rest ih =>
    intro st hcomp
    match r with
    | .err p =>
      simp only [admitRun, okHandles] at hcomp ⊢
      simpa using ih { st with skipped := st.skipped ++ [p] } hcomp
    | .ok resp t =>
      by_cases hb : maxT < st.total + t
      · cases hd : del resp with
        | ok u =>
          simp only [admitRun, if_pos hb, hd, okHandles] at hcomp ⊢
          have hrec := ih { st with skipped := st.skipped ++ [resp.displayName],
                                    deleted := st.deleted ++ [resp] } hcomp
          simp only [List.count_append, List.count_cons, List.count_nil] at hrec ⊢
          omega
        | error e =>
          simp only [admitRun, if_pos hb, hd] at hcomp
          exact Bool.noConfusion hcomp
      · simp only [admitRun, if_neg hb, okHandles] at hcomp ⊢
        have hrec := ih { st with uploaded := st.uploaded ++ [resp],
                                  total := st.total + t } hcomp
        simp only [List.count_append, List.count_cons, List.count_nil] at hrec ⊢
        omega

theorem admitRun_skipped_subset (maxT : Nat) (del : FileResp → Except String Unit) :
    ∀ (rs : List WorkerResult) (st : UState),
      st.skipped ⊆ (admitRun maxT del st rs).1.skipped := by
  intro rs
  induction rs with
  | nil => intro st; simp [admitRun]
  | cons r rest ih =>
    intro st
    match r with
    | .err p =>
      simp only [admitRun]
      exact List.Subset.trans (List.subset_append_left _ _)
        (ih { st with skipped := st.skipped ++ [p] })
    | .ok resp t =>
      by_cases hb : maxT < st.total + t
      · cases hd : del resp with
        | ok u =>
          simp only [admitRun, if_pos hb, hd]
          exact List.Subset.trans (List.subset_append_left _ _)
            (ih { st with skipped := st.skipped ++ [resp.displayName],
                          deleted := st.deleted ++ [resp] })
        | error e =>
          simp only [admitRun, if_pos hb, hd]
          exact List.subset_append_left _ _
      · simp only [admitRun, if_neg hb]
        exact ih { st with uploaded := st.uploaded ++ [resp],
                           total := st.total + t }

theorem admitRun_err_skipped (maxT : Nat) (del : FileResp → Except String Unit)
    (p : String) :
    ∀ (rs : List WorkerResult) (st : UState),
      (admitRun maxT del st rs).2 = true → WorkerResult.err p ∈ rs →
      p ∈ (admitRun maxT del st rs).1.skipped := by
  intro rs
  induction rs with
  | nil => intro st _ hmem; cases hmem
  | cons r rest ih =>
    intro st hcomp hmem
    rcases List.mem_cons.mp hmem with heq | hmem'
    · subst heq
      simp only [admitRun] at hcomp ⊢
      apply admitRun_skipped_subset
      exact List.mem_append_right _ (List.mem_singleton.mpr rfl)
    · match r with
      | .err p' =>
        simp only [admitRun] at hcomp ⊢
        exact ih _ hcomp hmem'
      | .ok resp t =>
        by_cases hb : maxT < st.total + t
        · cases hd : del resp with
          | ok u =>
            simp only [admitRun, if_pos hb, hd] at hcomp ⊢
            exact ih _ hcomp hmem'
          | error e =>
            simp only [admitRun, if_pos hb, hd] at hcomp
            exact Bool.noConfusion hcomp
        · simp only [admitRun, if_neg hb] at hcomp ⊢
          exact ih _ hcomp hmem'

theorem okHandles_map_process (ws : List WorkerInput) :
    okHandles (ws.map process_file) = measuredOkHandles ws := by
  induction ws with
  | nil => rfl
  | cons w rest ih =>
    rw [List.map_cons]
    cases hs : w.storeResult with
    | error e => simp [process_file, hs, okHandles, ih, measuredOkHandles]
    | ok resp =>
      cases hm : w.measureResult with
      | error e => simp [process_file, hs, hm, okHandles, ih, measuredOkHandles]
      | ok t => simp [process_file, hs, hm, okHandles, ih, measuredOkHandles]

theorem measuredOk_sublist_created (ws : List WorkerInput) :
    List.Sublist (measuredOkHandles ws) (createdHandles ws) := by
  induction ws with
  | nil => exact List.Sublist.refl _
  | cons w rest ih =>
    cases hs : w.storeResult with
    | error e => simpa [measuredOkHandles, createdHandles, hs] using ih
    | ok resp =>
      cases hm : w.measureResult with
      | error e =>
        simp only [measuredOkHandles, createdHandles, hs, hm]
        exact List.Sublist.cons _ ih
      | ok t =>
        simp only [measuredOkHandles, createdHandles, hs, hm]
        exact List.Sublist.cons₂ _ ih

theorem runDeletes_sub_count (del : FileResp → Except String Unit)
    (ws : List WorkerInput) (h : FileResp) :
    (runDeletes del ws).count h ≤
      ((admitRun max_tokens del ⟨[], [], 0, []⟩ (ws.map process_file)).1.deleted ++
        (admitRun max_tokens del ⟨[], [], 0, []⟩ (ws.map process_file)).1.uploaded).count h := by
  rw [runDeletes]
  cases hc : (admitRun max_tokens del ⟨[], [], 0, []⟩ (ws.map process_file)).2 with
  | true =>
    rw [if_pos rfl]
  | false =>
    rw [if_neg (by simp)]
    rw [List.count_append]
    omega

theorem runDeletes_count_le (del : FileResp → Except String Unit)
    (ws : List WorkerInput) (h : FileResp) :
    (runDeletes del ws).count h ≤ (measuredOkHandles ws).count h := by
  have h1 := runDeletes_sub_count del ws h
  have h2 := admitRun_count_le max_tokens del h (ws.map process_file) ⟨[], [], 0, []⟩
  rw [okHandles_map_process] at h2
  simp only [List.count_append, List.count_nil] at h2
  rw [List.count_append] at h1
  omega

theorem runDeletes_count_complete (del : FileResp → Except String Unit)
    (ws : List WorkerInput) (h : FileResp)
    (hcomp : (admitRun max_tokens del ⟨[], [], 0, []⟩ (ws.map process_file)).2 = true) :
    (runDeletes del ws).count h = (measuredOkHandles ws).count h := by
  rw [runDeletes, if_pos hcomp]
  have h2 := admitRun_count_complete max_tokens del h (ws.map process_file)
    ⟨[], [], 0, []⟩ hcomp
  rw [okHandles_map_process] at h2
  simpa using h2

theorem measuredOk_count_lt_created_count :
    ∀ (ws : List WorkerInput) (w : WorkerInput) (resp : FileResp) (e : String),
      w ∈ ws → w.storeResult = .ok resp → w.measureResult = .error e →
      (measuredOkHandles ws).count resp < (createdHandles ws).count resp := by
  intro ws
  induction ws with
  | nil => intro w resp e hw; cases hw
  | cons w₀ rest ih =>
    intro w resp e hw hstore hmeas
    rcases List.mem_cons.mp hw with heq | hmem
    · subst heq
      simp only [measuredOkHandles, createdHandles, hstore, hmeas]
      have hle := ((measuredOk_sublist_created rest).count_le resp)
      simp [List.count_cons]
      omega
    · have hlt := ih w resp e hmem hstore hmeas
      cases hs : w₀.storeResult with
      | error e₀ => simpa [measuredOkHandles, createdHandles, hs] using hlt
      | ok r₀ =>
        cases hm : w₀.measureResult with
        | error e₀ =>
          simp only [measuredOkHandles, createdHandles, hs, hm]
          simp [List.count_cons]
          omega
        | ok t₀ =>
          simp only [measuredOkHandles, createdHandles, hs, hm]
          simp [List.count_cons]
          omega

end Gemini

namespace Gemini

/-- C1: for every sequence of worker results processed by the admission
loop of `upload_files` — and since every prefix of the result list of a run
is itself such a sequence, after every single decision — the consumed
total never exceeds the 2,000,000-token ceiling, and the total equals
the sum of the costs of exactly the admitted files, the ones placed in
`uploaded_files`. -/
theorem C1_admission_budget (rs : List WorkerResult) :
    (admitLoop max_tokens rs).total ≤ max_tokens
    ∧ (admitLoop max_tokens rs).total =
        ((admittedResults max_tokens 0 rs).map Prod.snd).sum
    ∧ (admitLoop max_tokens rs).uploaded =
        (admittedResults max_tokens 0 rs).map Prod.fst := by
  refine ⟨?_, ?_, ?_⟩
  · exact foldl_admitStep_total_le max_tokens rs ⟨[], [], 0, []⟩ (Nat.zero_le _)
  · have h := foldl_admitStep_total max_tokens rs ⟨[], [], 0, []⟩
    rw [admitLoop]
    simpa using h
  · have h := foldl_admitStep_uploaded max_tokens rs ⟨[], [], 0, []⟩
    rw [admitLoop]
    simpa using h

/-- C2 counterexample: two concrete runs on which a created handle is
never passed to delete. First, a worker whose store succeeds (handle n1)
and whose measure then fails: the bare except handler of the worker
returns `(None, 0, filepath)` without deleting, the admission loop only
sees the Failed record, and the final cleanup only receives
`uploaded_files`. Second, a run in which m1 is admitted and m2 is then
rejected over budget but the unguarded inline delete of m2 (line 128)
raises: `upload_files` aborts, `uploaded_files` in `main` stays `[]`,
the `finally` cleanup deletes nothing, and the admitted handle m1 is
never passed to delete. -/
theorem C2_counterexample :
    ((⟨"n1", "f"⟩ : FileResp) ∈
        createdHandles [⟨"f", .ok ⟨"n1", "f"⟩, .error "boom"⟩]
      ∧ (⟨"n1", "f"⟩ : FileResp) ∉
        runDeletes (fun _ => (.ok () : Except String Unit))
          [⟨"f", .ok ⟨"n1", "f"⟩, .error "boom"⟩])
    ∧ ((⟨"m1", "a"⟩ : FileResp) ∈
        createdHandles [⟨"a", .ok ⟨"m1", "a"⟩, .ok 1500000⟩,
          ⟨"b", .ok ⟨"m2", "b"⟩, .ok 800000⟩]
      ∧ (⟨"m1", "a"⟩ : FileResp) ∉
        runDeletes
          (fun f => if f.name = "m2" then (.error "quota" : Except String Unit) else .ok ())
          [⟨"a", .ok ⟨"m1", "a"⟩, .ok 1500000⟩,
            ⟨"b", .ok ⟨"m2", "b"⟩, .ok 800000⟩]) := by
  refine ⟨⟨by decide, by decide⟩, ⟨by decide, by decide⟩⟩

/-- C2 (amended): with distinct created handles and the per-handle
outcomes of the remote delete given by `del`: every handle is passed to
delete at most once over the run; when the admission loop completes
(no inline delete raised), a handle whose store and measure both
succeeded is passed to delete exactly once — inline if rejected over
budget, by the final cleanup if admitted; a handle created by store
whose measure failed afterwards is never passed to delete on any path
(it leaks); and when an inline delete raised and aborted the loop, an
admitted handle is never passed to delete either (the final cleanup
receives the empty list). -/
theorem C2_created_handles_deleted (ws : List WorkerInput)
    (del : FileResp → Except String Unit) (h : FileResp)
    (hnd : (createdHandles ws).Nodup) :
    (runDeletes del ws).count h ≤ 1
    ∧ ((admitRun max_tokens del ⟨[], [], 0, []⟩ (ws.map process_file)).2 = true →
        h ∈ measuredOkHandles ws → (runDeletes del ws).count h = 1)
    ∧ (∀ w ∈ ws, ∀ e, w.storeResult = .ok h → w.measureResult = .error e →
        (runDeletes del ws).count h = 0)
    ∧ ((admitRun max_tokens del ⟨[], [], 0, []⟩ (ws.map process_file)).2 = false →
        h ∈ (admitRun max_tokens del ⟨[], [], 0, []⟩ (ws.map process_file)).1.uploaded →
        h ∉ runDeletes del ws) := by
  have hmle : (measuredOkHandles ws).count h ≤ (createdHandles ws).count h :=
    (measuredOk_sublist_created ws).count_le h
  have hcle : (createdHandles ws).count h ≤ 1 :=
    List.nodup_iff_count_le_one.mp hnd h
  have hrle := runDeletes_count_le del ws h
  refine ⟨by omega, ?_, ?_, ?_⟩
  · intro hcomp hmem
    rw [runDeletes_count_complete del ws h hcomp]
    have h1 : 0 < (measuredOkHandles ws).count h := List.count_pos_iff.mpr hmem
    omega
  · intro w hw e hstore hmeas
    have hlt := measuredOk_count_lt_created_count ws w h e hw hstore hmeas
    omega
  · intro hcomp hup hcontra
    have hd : h ∈ (admitRun max_tokens del ⟨[], [], 0, []⟩
        (ws.map process_file)).1.deleted := by
      rw [runDeletes, if_neg (by simp [hcomp])] at hcontra
      exact hcontra
    have h1 : 0 < ((admitRun max_tokens del ⟨[], [], 0, []⟩
        (ws.map process_file)).1.deleted).count h := List.count_pos_iff.mpr hd
    have h2 : 0 < ((admitRun max_tokens del ⟨[], [], 0, []⟩
        (ws.map process_file)).1.uploaded).count h := List.count_pos_iff.mpr hup
    have hle := admitRun_count_le max_tokens del h (ws.map process_file) ⟨[], [], 0, []⟩
    rw [okHandles_map_process] at hle
    simp only [List.count_append, List.count_nil] at hle
    omega

theorem C2_created_handles_deleted_witness :
    (runDeletes (fun _ => (.ok () : Except String Unit))
        [⟨"a", .ok ⟨"n1", "a"⟩, .ok 5⟩,
          ⟨"b", .ok ⟨"n2", "b"⟩, .error "x"⟩]).count ⟨"n1", "a"⟩ = 1
    ∧ (runDeletes (fun _ => (.ok () : Except String Unit))
        [⟨"a", .ok ⟨"n1", "a"⟩, .ok 5⟩,
          ⟨"b", .ok ⟨"n2", "b"⟩, .error "x"⟩]).count ⟨"n2", "b"⟩ = 0
    ∧ (⟨"m1", "a"⟩ : FileResp) ∉
        runDeletes
          (fun f => if f.name = "m2" then (.error "quota" : Except String Unit) else .ok ())
          [⟨"a", .ok ⟨"m1", "a"⟩, .ok 1500000⟩,
            ⟨"b", .ok ⟨"m2", "b"⟩, .ok 800000⟩] := by
  refine ⟨?_, ?_, ?_⟩
  · exact (C2_created_handles_deleted
      [⟨"a", .ok ⟨"n1", "a"⟩, .ok 5⟩, ⟨"b", .ok ⟨"n2", "b"⟩, .error "x"⟩]
      (fun _ => (.ok () : Except String Unit)) ⟨"n1", "a"⟩
      (by decide)).2.1 (by decide) (by decide)
  · exact (C2_created_handles_deleted
      [⟨"a", .ok ⟨"n1", "a"⟩, .ok 5⟩, ⟨"b", .ok ⟨"n2", "b"⟩, .error "x"⟩]
      (fun _ => (.ok () : Except String Unit)) ⟨"n2", "b"⟩
      (by decide)).2.2.1 ⟨"b", .ok ⟨"n2", "b"⟩, .error "x"⟩
      (List.mem_cons_of_mem _ (List.mem_cons_self _ _)) "x" rfl rfl
  · exact (C2_created_handles_deleted
      [⟨"a", .ok ⟨"m1", "a"⟩, .ok 1500000⟩, ⟨"b", .ok ⟨"m2", "b"⟩, .ok 800000⟩]
      (fun f => if f.name = "m2" then (.error "quota" : Except String Unit) else .ok ())
      ⟨"m1", "a"⟩ (by decide)).2.2.2 (by decide) (by decide)

/-- C3 counterexample: a worker whose store succeeds (handle n5) and
whose measure fails does record a Failed outcome, but its handle is not
deleted — not by the worker (the except handler performs no delete) nor
anywhere later in the run, here a run on which every attempted remote
delete would have succeeded — refuting the clause of the claim that a
handle created before the failure is deleted immediately. -/
theorem C3_counterexample :
    process_file ⟨"g", .ok ⟨"n5", "g"⟩, .error "x"⟩ = .err "g"
    ∧ (⟨"n5", "g"⟩ : FileResp) ∈
        createdHandles [⟨"g", .ok ⟨"n5", "g"⟩, .error "x"⟩]
    ∧ (⟨"n5", "g"⟩ : FileResp) ∉
        runDeletes (fun _ => (.ok () : Except String Unit))
          [⟨"g", .ok ⟨"n5", "g"⟩, .error "x"⟩] := by
  refine ⟨by decide, by decide, by decide⟩

/-- C3 (amended): a worker that fails at store, or at measure, records a
Failed outcome without reaching admission: `process_file` returns the
`(None, 0, filepath)` record, and — on a run whose admission loop
completes, since an inline delete raising at line 128 aborts the loop
and loses the local `skipped_files` — the path lands in `skipped_files`.
When the failure was at measure, a handle had already been created by
store; that handle never enters `uploaded_files`, and it is NOT deleted
by the worker nor anywhere else in the run: the run issues zero deletes
for it. -/
theorem C3_failed_worker (ws : List WorkerInput)
    (del : FileResp → Except String Unit) (w : WorkerInput)
    (hw : w ∈ ws) (hnd : (createdHandles ws).Nodup) :
    (∀ e, w.storeResult = .error e →
      process_file w = .err w.path
      ∧ ((admitRun max_tokens del ⟨[], [], 0, []⟩ (ws.map process_file)).2 = true →
          w.path ∈ (admitRun max_tokens del ⟨[], [], 0, []⟩
            (ws.map process_file)).1.skipped))
    ∧ (∀ resp e, w.storeResult = .ok resp → w.measureResult = .error e →
      process_file w = .err w.path
      ∧ ((admitRun max_tokens del ⟨[], [], 0, []⟩ (ws.map process_file)).2 = true →
          w.path ∈ (admitRun max_tokens del ⟨[], [], 0, []⟩
            (ws.map process_file)).1.skipped)
      ∧ resp ∉ (admitRun max_tokens del ⟨[], [], 0, []⟩
          (ws.map process_file)).1.uploaded
      ∧ (runDeletes del ws).count resp = 0) := by
  constructor
  · intro e hstore
    have hpf : process_file w = .err w.path := by
      simp [process_file, hstore]
    refine ⟨hpf, fun hcomp => ?_⟩
    apply admitRun_err_skipped max_tokens del w.path (ws.map process_file) _ hcomp
    rw [← hpf]
    exact List.mem_map_of_mem _ hw
  · intro resp e hstore hmeas
    have hpf : process_file w = .err w.path := by
      simp [process_file, hstore, hmeas]
    have hlt := measuredOk_count_lt_created_count ws w resp e hw hstore hmeas
    have hcle := List.nodup_iff_count_le_one.mp hnd resp
    have hle := admitRun_count_le max_tokens del resp (ws.map process_file) ⟨[], [], 0, []⟩
    rw [okHandles_map_process] at hle
    simp only [List.count_append, List.count_nil] at hle
    refine ⟨hpf, fun hcomp => ?_, ?_, ?_⟩
    · apply admitRun_err_skipped max_tokens del w.path (ws.map process_file) _ hcomp
      rw [← hpf]
      exact List.mem_map_of_mem _ hw
    · intro hup
      have h2 : 0 < ((admitRun max_tokens del ⟨[], [], 0, []⟩
          (ws.map process_file)).1.uploaded).count resp := List.count_pos_iff.mpr hup
      omega
    · have hrle := runDeletes_count_le del ws resp
      omega

theorem C3_failed_worker_witness :
    process_file ⟨"s", .error "se", .ok 1⟩ = .err "s"
    ∧ "s" ∈ (admitRun max_tokens (fun _ => (.ok () : Except String Unit)) ⟨[], [], 0, []⟩
        ([⟨"s", .error "se", .ok 1⟩, ⟨"k", .ok ⟨"n6", "k"⟩, .error "y"⟩,
          ⟨"m", .ok ⟨"n7", "m"⟩, .ok 4⟩].map process_file)).1.skipped
    ∧ process_file ⟨"k", .ok ⟨"n6", "k"⟩, .error "y"⟩ = .err "k"
    ∧ "k" ∈ (admitRun max_tokens (fun _ => (.ok () : Except String Unit)) ⟨[], [], 0, []⟩
        ([⟨"s", .error "se", .ok 1⟩, ⟨"k", .ok ⟨"n6", "k"⟩, .error "y"⟩,
          ⟨"m", .ok ⟨"n7", "m"⟩, .ok 4⟩].map process_file)).1.skipped
    ∧ (⟨"n6", "k"⟩ : FileResp) ∉ (admitRun max_tokens
        (fun _ => (.ok () : Except String Unit)) ⟨[], [], 0, []⟩
        ([⟨"s", .error "se", .ok 1⟩, ⟨"k", .ok ⟨"n6", "k"⟩, .error "y"⟩,
          ⟨"m", .ok ⟨"n7", "m"⟩, .ok 4⟩].map process_file)).1.uploaded
    ∧ (runDeletes (fun _ => (.ok () : Except String Unit))
        [⟨"s", .error "se", .ok 1⟩, ⟨"k", .ok ⟨"n6", "k"⟩, .error "y"⟩,
          ⟨"m", .ok ⟨"n7", "m"⟩, .ok 4⟩]).count ⟨"n6", "k"⟩ = 0 := by
  have hA := (C3_failed_worker
    [⟨"s", .error "se", .ok 1⟩, ⟨"k", .ok ⟨"n6", "k"⟩, .error "y"⟩,
      ⟨"m", .ok ⟨"n7", "m"⟩, .ok 4⟩]
    (fun _ => (.ok () : Except String Unit)) ⟨"s", .error "se", .ok 1⟩
    (List.mem_cons_self _ _) (by decide)).1 "se" rfl
  have hB := (C3_failed_worker
    [⟨"s", .error "se", .ok 1⟩, ⟨"k", .ok ⟨"n6", "k"⟩, .error "y"⟩,
      ⟨"m", .ok ⟨"n7", "m"⟩, .ok 4⟩]
    (fun _ => (.ok () : Except String Unit)) ⟨"k", .ok ⟨"n6", "k"⟩, .error "y"⟩
    (List.mem_cons_of_mem _ (List.mem_cons_self _ _)) (by decide)).2
    ⟨"n6", "k"⟩ "y" rfl rfl
  exact ⟨hA.1, hA.2 (by decide), hB.1, hB.2.1 (by decide), hB.2.2.1, hB.2.2.2⟩

end Gemini

namespace Gemini

/-- Whether the remote delete of a handle succeeds. -/
def deleteOk (del : FileResp → Except String Unit) (f : FileResp) : Bool :=
  match del f with
  | .ok _ => true
  | .error _ => false

/-- Embeds `cleanup_files` (lines 137-145): one delete is submitted per
handle in `uploaded_files`; each result is collected under its own try,
a failure being caught and printed without stopping the loop and without
raising to the caller. The returned pair is (handles reported deleted,
handles reported as failed to delete), in input order; the source
reports through print lines and returns `None`. -/
def cleanup_files (del : FileResp → Except String Unit) :
    List FileResp → List FileResp × List FileResp
  | [] => ([], [])
  | f :: fs =>
    let rest := cleanup_files del fs
    match del f with
    | .ok _ => (f :: rest.1, rest.2)
    | .error _ => (rest.1, f :: rest.2)

/-- C7: cleanup attempts one delete per handle and classifies every
input handle — so a failed delete neither raises to the caller nor
prevents the remaining delete attempts — and the handles reported as
failures are exactly the ones whose delete failed, the successes exactly
the ones whose delete succeeded. -/
theorem C7_cleanup_reports (del : FileResp → Except String Unit)
    (files : List FileResp) :
    (cleanup_files del files).2 = files.filter (fun f => ! deleteOk del f)
    ∧ (cleanup_files del files).1 = files.filter (fun f => deleteOk del f)
    ∧ (∀ f ∈ files,
        f ∈ (cleanup_files del files).1 ∨ f ∈ (cleanup_files del files).2)
    ∧ (cleanup_files del files).1.length + (cleanup_files del files).2.length =
        files.length := by
  induction files with
  | nil => simp [cleanup_files]
  | cons f fs ih =>
    obtain ⟨ih1, ih2, ih3, ih4⟩ := ih
    cases hd : del f with
    | ok u =>
      have hok : deleteOk del f = true := by simp [deleteOk, hd]
      simp only [cleanup_files, hd]
      refine ⟨?_, ?_, ?_, ?_⟩
      · simp [List.filter_cons, hok, ih1]
      · simp [List.filter_cons, hok, ih2]
      · intro g hg
        rcases List.mem_cons.mp hg with rfl | hg'
        · exact Or.inl (List.mem_cons_self _ _)
        · rcases ih3 g hg' with h1 | h2
          · exact Or.inl (List.mem_cons_of_mem _ h1)
          · exact Or.inr h2
      · simp only [List.length_cons]
        omega
    | error e =>
      have hok : deleteOk del f = false := by simp [deleteOk, hd]
      simp only [cleanup_files, hd]
      refine ⟨?_, ?_, ?_, ?_⟩
      · simp [List.filter_cons, hok, ih1]
      · simp [List.filter_cons, hok, ih2]
      · intro g hg
        rcases List.mem_cons.mp hg with rfl | hg'
        · exact Or.inr (List.mem_cons_self _ _)
        · rcases ih3 g hg' with h1 | h2
          · exact Or.inl h1
          · exact Or.inr (List.mem_cons_of_mem _ h2)
      · simp only [List.length_cons]
        omega

theorem C7_cleanup_reports_witness :
    (cleanup_files
        (fun f => if f.name = "bad" then (.error "gone" : Except String Unit) else .ok ())
        [⟨"g1", "g1"⟩, ⟨"bad", "b"⟩]).2 =
      List.filter
        (fun f => ! deleteOk
          (fun f => if f.name = "bad" then (.error "gone" : Except String Unit) else .ok ()) f)
        [⟨"g1", "g1"⟩, ⟨"bad", "b"⟩]
    ∧ (cleanup_files
        (fun f => if f.name = "bad" then (.error "gone" : Except String Unit) else .ok ())
        [⟨"g1", "g1"⟩, ⟨"bad", "b"⟩]).1 =
      List.filter
        (fun f => deleteOk
          (fun f => if f.name = "bad" then (.error "gone" : Except String Unit) else .ok ()) f)
        [⟨"g1", "g1"⟩, ⟨"bad", "b"⟩]
    ∧ (∀ f ∈ [(⟨"g1", "g1"⟩ : FileResp), ⟨"bad", "b"⟩],
        f ∈ (cleanup_files
          (fun f => if f.name = "bad" then (.error "gone" : Except String Unit) else .ok ())
          [⟨"g1", "g1"⟩, ⟨"bad", "b"⟩]).1
        ∨ f ∈ (cleanup_files
          (fun f => if f.name = "bad" then (.error "gone" : Except String Unit) else .ok ())
          [⟨"g1", "g1"⟩, ⟨"bad", "b"⟩]).2)
    ∧ (cleanup_files
        (fun f => if f.name = "bad" then (.error "gone" : Except String Unit) else .ok ())
        [⟨"g1", "g1"⟩, ⟨"bad", "b"⟩]).1.length +
      (cleanup_files
        (fun f => if f.name = "bad" then (.error "gone" : Except String Unit) else .ok ())
        [⟨"g1", "g1"⟩, ⟨"bad", "b"⟩]).2.length = 2 :=
  C7_cleanup_reports _ _

end Gemini

namespace Gemini

/-- The kind of a filesystem object: `symlinkToFile` is a symbolic link
whose target resolves to a regular file, `symlinkToDir` one resolving to
a directory, `other` a non-regular object (fifo, socket, device, broken
link). -/
inductive FKind where
  | regularFile
  | directory
  | symlinkToFile
  | symlinkToDir
  | other
deriving DecidableEq

/-- One filesystem object under the root directory: its path components
relative to the root, and its kind. -/
structure FSEntry where
  path : List String
  kind : FKind
deriving DecidableEq

/-- Models `os.path.isfile` of the Python standard library: true for a
regular file and for a symbolic link resolving to a regular file, since
`isfile` follows symbolic links. -/
def isfile (e : FSEntry) : Bool :=
  match e.kind with
  | .regularFile => true
  | .symlinkToFile => true
  | _ => false

/-- A path component that glob treats as hidden: a name starting with a
dot. -/
def isHiddenComponent (c : String) : Bool :=
  match c.data with
  | [] => false
  | ch :: _ => ch = '.'

/-- Models `glob.glob(f"{directory}/**/*", recursive=True)` (line 115):
the enumerated objects under the root. The Python glob does not match
names with a leading dot with `*`, and `**` does not descend into hidden
directories, so exactly the entries with no dot-prefixed path component
are enumerated. -/
def globRecursive (fs : List FSEntry) : List FSEntry :=
  fs.filter (fun e => ! e.path.any isHiddenComponent)

/-- Embeds the discovery comprehension of `upload_files` (lines
113-117): the glob enumeration filtered by `os.path.isfile`. -/
def files_to_process (fs : List FSEntry) : List FSEntry :=
  (globRecursive fs).filter isfile

/-- C8 counterexample: a root holding a visible regular file, a hidden
regular file and a symbolic link to a regular file. Discovery misses the
hidden regular file (so not every regular file gets a record) and
includes the symbolic link (so symbolic links are not excluded): both
halves of the claim fail at this input. -/
theorem C8_counterexample :
    (⟨[".hidden"], .regularFile⟩ : FSEntry) ∉
        files_to_process [⟨["a.txt"], .regularFile⟩, ⟨[".hidden"], .regularFile⟩,
          ⟨["ln"], .symlinkToFile⟩]
    ∧ (⟨["ln"], .symlinkToFile⟩ : FSEntry) ∈
        files_to_process [⟨["a.txt"], .regularFile⟩, ⟨[".hidden"], .regularFile⟩,
          ⟨["ln"], .symlinkToFile⟩] := by
  decide

/-- C8 (amended): discovery produces a record exactly for the entries
that pass `os.path.isfile` — regular files and symbolic links resolving
to regular files — and whose relative path has no hidden (dot-prefixed)
component. In particular directories, symlinks to directories and other
non-regular objects are excluded, but hidden regular files are missed
and symlinks to regular files are included. -/
theorem C8_discovery (fs : List FSEntry) (e : FSEntry) :
    e ∈ files_to_process fs ↔
      e ∈ fs ∧ isfile e = true ∧ e.path.any isHiddenComponent = false := by
  rw [files_to_process, globRecursive]
  simp only [List.mem_filter, Bool.not_eq_true']
  tauto

end Gemini
